import Mathlib

/-!
Verification development for the SpectrumWeaver streaming spectrum analyzer
(`src/analyzers/spectrum_analyzer.py`).  The definitions below are shallow
embeddings of the pieces of `SpectrumAnalyzer` that the specification talks
about: constructor parameter handling, the frame-segmentation loop of
`_reader_worker` (with and without the queue-full drop branch), the
`num_time_frames` formula returned by `start`, the state updates performed by
`start` and `stop`, and the per-frame transform of `_fft_worker` (window,
real FFT, magnitude clamp, dB conversion, frequency slicing) modelled over
the real numbers.
-/

namespace SpectrumWeaver

/-- Embeds `self.hop_length = hop_length or fft_size // 4` from
`SpectrumAnalyzer.__init__`: Python `or` treats both `None` and `0` as falsy,
so either yields `fft_size // 4`; any other supplied value is stored
unvalidated. -/
def initHopLength (fft_size : Nat) (hop_length : Option Nat) : Nat :=
  match hop_length with
  | none => fft_size / 4
  | some h => if h = 0 then fft_size / 4 else h

/-- Embeds the `num_time_frames` entry of the dictionary returned by
`SpectrumAnalyzer.start`:
`(self.total_samples - self.fft_size) // self.hop_length + 1`, where Python
`//` is floor division (`Int.fdiv`). -/
def num_time_frames (total_samples fft_size hop_length : Int) : Int :=
  (total_samples - fft_size).fdiv hop_length + 1

/-- Embeds the frame-extraction loop of `_reader_worker`
(`while len(buffer) >= self.fft_size: frame = buffer[:fft_size];
buffer = buffer[hop_length:]`) in the case where every `put` succeeds:
returns the emitted `(frame_index, frame)` pairs together with the residual
buffer.  `i` is the running frame index.  The guard `0 < H ∧ 0 < F` restricts
to the parameters for which the Python loop terminates. -/
def segLoop (F H : Nat) {α : Type} (b : List α) (i : Nat) :
    List (Nat × List α) × List α :=
  if h : F ≤ b.length ∧ 0 < H ∧ 0 < F then
    let rest := segLoop F H (b.drop H) (i + 1)
    ((i, b.take F) :: rest.1, rest.2)
  else ([], b)
termination_by b.length
decreasing_by
  simp only [List.length_drop]
  omega

/-- Residual state of the segmentation across chunks: the sample buffer of
`_reader_worker` together with the running `frame_index`. -/
structure SegState (α : Type) where
  buffer : List α
  frameIndex : Nat
deriving DecidableEq

/-- One chunk arriving in `_reader_worker`'s `for chunk in stream` loop:
`buffer = np.concatenate([buffer, chunk])` followed by the frame-extraction
loop. -/
def segPush (F H : Nat) {α : Type} (s : SegState α) (chunk : List α) :
    List (Nat × List α) × SegState α :=
  let r := segLoop F H (s.buffer ++ chunk) s.frameIndex
  (r.1, ⟨r.2, s.frameIndex + r.1.length⟩)

/-- Feeding a whole sequence of chunks through `segPush`, concatenating the
frames produced by each call. -/
def feedChunks (F H : Nat) {α : Type} (s : SegState α) :
    List (List α) → List (Nat × List α) × SegState α
  | [] => ([], s)
  | c :: cs =>
    let r := segPush F H s c
    let rest := feedChunks F H r.2 cs
    (r.1 ++ rest.1, rest.2)

/-- Embeds the same loop of `_reader_worker` including the queue interaction
(lines 153-166): `full k` tells whether the bounded queue is full at the k-th
`put` attempt.  On `queue.Full` the frame is skipped (`pass`) and — exactly
as in the source — `frame_index` is NOT incremented, while the buffer still
advances by `hop_length`.  Returns the successfully enqueued
`(frame_index, frame)` pairs. -/
def readerLoop (F H : Nat) (full : Nat → Bool) {α : Type} (b : List α)
    (i k : Nat) : List (Nat × List α) :=
  if h : F ≤ b.length ∧ 0 < H ∧ 0 < F then
    if full k then readerLoop F H full (b.drop H) i (k + 1)
    else (i, b.take F) :: readerLoop F H full (b.drop H) (i + 1) (k + 1)
  else []
termination_by b.length
decreasing_by
  all_goals simp only [List.length_drop]
  all_goals omega

/-- One observation made by `_fft_worker`'s loop when it reads the queue:
either `queue.get` timed out (`queue.Empty`), or the `None` end-of-data
sentinel arrived, or a `(frame_index, audio_frame)` pair arrived. -/
inductive QItem (α : Type) where
  | empty : QItem α
  | sentinel : QItem α
  | frame : Nat → List α → QItem α
deriving DecidableEq

/-- Embeds the `while not self._stop_event.is_set()` loop of `_fft_worker`.
Each step carries the value of the stop event at the top of the iteration and
the queue observation of that iteration.  `cbFails i` tells whether the
consumer callback raises when invoked with frame index `i`; in the source
such an exception is not caught inside the loop — it propagates to the outer
`except` handler, terminating the loop.  `transform` abstracts the
window/FFT/dB computation applied to the frame data.  Returns the list of
per-frame callback invocations, in order. -/
def fftWorkerLoop {α : Type} (cbFails : Int → Bool)
    (transform : List α → List α) : List (Bool × QItem α) → List (Int × List α)
  | [] => []
  | (stopSet, item) :: rest =>
    if stopSet then []
    else
      match item with
      | .empty => fftWorkerLoop cbFails transform rest
      | .sentinel => []
      | .frame i d =>
        if cbFails (i : Int) then [((i : Int), transform d)]
        else ((i : Int), transform d) :: fftWorkerLoop cbFails transform rest

/-- Embeds a full run of `_fft_worker`: the loop, then the `finally` block,
which always invokes the callback once more with `(-1, np.array([]))` (a
failure of that terminal invocation is itself caught, so the invocation list
still records it exactly once). -/
def fftWorker {α : Type} (cbFails : Int → Bool) (transform : List α → List α)
    (steps : List (Bool × QItem α)) : List (Int × List α) :=
  fftWorkerLoop cbFails transform steps ++ [((-1 : Int), [])]

/-- The mutable fields of `SpectrumAnalyzer` that the lifecycle methods
touch, plus the contents of the bounded queue `_audio_queue` (a `none` entry
is the `None` end-of-data sentinel). -/
structure AnalyzerState (α : Type) where
  is_running : Bool
  is_finished : Bool
  stop_event : Bool
  audio_queue : List (Option (Nat × List α))
deriving DecidableEq

/-- Embeds `SpectrumAnalyzer.stop`: a no-op unless `is_running`; otherwise it
sets the stop event and clears `is_running` (the thread joins have no effect
on the modelled state). -/
def stop {α : Type} (s : AnalyzerState α) : AnalyzerState α :=
  if s.is_running then
    { s with stop_event := true, is_running := false }
  else s

/-- Embeds the state mutations of `SpectrumAnalyzer.start` (lines 68-69 and
92-94): raise `RuntimeError` if already running, otherwise set `is_running`,
clear `is_finished`, clear the stop event — and nothing else: in particular
`_audio_queue`, created once in `__init__`, is left untouched. -/
def startStateUpdate {α : Type} (s : AnalyzerState α) :
    Except String (AnalyzerState α) :=
  if s.is_running then Except.error "Analyzer is already running"
  else Except.ok
    { s with is_running := true, is_finished := false, stop_event := false }

/-- Real-input discrete Fourier transform, embedding `np.fft.rfft`: for an
input of length `N` it returns the `N / 2 + 1` bins
`X k = Σ_n x n · exp (-2πi·k·n / N)`. -/
noncomputable def rfft (x : List ℝ) : List ℂ :=
  (List.range (x.length / 2 + 1)).map fun k =>
    ∑ n ∈ Finset.range x.length,
      ((x.getD n 0 : ℝ) : ℂ) *
        Complex.exp (-(2 * (Real.pi : ℂ) * Complex.I * k * n) / x.length)

/-- The dB conversion applied per bin by `_fft_worker`:
`magnitudes = np.maximum(magnitudes, 1e-10)` then
`magnitudes_db = 20 * np.log10(magnitudes)`. -/
noncomputable def magnitude_db (m : ℝ) : ℝ :=
  20 * Real.logb 10 (max m 1e-10)

/-- Embeds the per-frame body of `_fft_worker` (lines 189-203):
`windowed_frame = audio_frame * window`, `fft_result = np.fft.rfft(...)`,
magnitude, clamp at `1e-10`, `20·log10`, and the slice
`magnitudes_db[:len(freq_bins)]` taken only when `max_freq` is set and the
vector is longer than the truncated bin count `numBins`. -/
noncomputable def processFrame (window : List ℝ) (maxFreqSet : Bool)
    (numBins : Nat) (frame : List ℝ) : List ℝ :=
  let windowed := List.zipWith (· * ·) frame window
  let fftResult := rfft windowed
  let magnitudesDb := fftResult.map fun c => magnitude_db (Complex.abs c)
  if maxFreqSet ∧ numBins < magnitudesDb.length then magnitudesDb.take numBins
  else magnitudesDb

/-- Stated from the claim's words, for comparison with `processFrame`: square
the magnitude, normalize by `fft_size²` (the frame length squared), clamp to
a small numerical floor (the spec's example `1e-12`), and convert via
`10·log10` of the normalized power. -/
noncomputable def processFrameClaim (window : List ℝ) (maxFreqSet : Bool)
    (numBins : Nat) (frame : List ℝ) : List ℝ :=
  let windowed := List.zipWith (· * ·) frame window
  let fftResult := rfft windowed
  let magnitudesDb := fftResult.map fun c =>
    10 * Real.logb 10 (max ((Complex.abs c) ^ 2 / (frame.length : ℝ) ^ 2) 1e-12)
  if maxFreqSet ∧ numBins < magnitudesDb.length then magnitudesDb.take numBins
  else magnitudesDb

/-- The code's dB step written as one consistent power formula: `10·log10`
of the clamped magnitude squared (no normalization). -/
noncomputable def processFramePower (window : List ℝ) (maxFreqSet : Bool)
    (numBins : Nat) (frame : List ℝ) : List ℝ :=
  let windowed := List.zipWith (· * ·) frame window
  let fftResult := rfft windowed
  let magnitudesDb := fftResult.map fun c =>
    10 * Real.logb 10 ((max (Complex.abs c) 1e-10) ^ 2)
  if maxFreqSet ∧ numBins < magnitudesDb.length then magnitudesDb.take numBins
  else magnitudesDb

theorem segLoop_neg {α : Type} {F H : Nat} {b : List α} {i : Nat}
    (h : ¬(F ≤ b.length ∧ 0 < H ∧ 0 < F)) : segLoop F H b i = ([], b) := by
  rw [segLoop]
  exact dif_neg h

theorem segLoop_pos {α : Type} {F H : Nat} {b : List α} {i : Nat}
    (h : F ≤ b.length ∧ 0 < H ∧ 0 < F) :
    segLoop F H b i =
      ((i, b.take F) :: (segLoop F H (b.drop H) (i + 1)).1,
       (segLoop F H (b.drop H) (i + 1)).2) := by
  rw [segLoop]
  rw [dif_pos h]

theorem readerLoop_neg {α : Type} {F H : Nat} {full : Nat → Bool}
    {b : List α} {i k : Nat} (h : ¬(F ≤ b.length ∧ 0 < H ∧ 0 < F)) :
    readerLoop F H full b i k = [] := by
  rw [readerLoop]
  exact dif_neg h

theorem readerLoop_pos {α : Type} {F H : Nat} {full : Nat → Bool}
    {b : List α} {i k : Nat} (h : F ≤ b.length ∧ 0 < H ∧ 0 < F) :
    readerLoop F H full b i k =
      if full k then readerLoop F H full (b.drop H) i (k + 1)
      else (i, b.take F) :: readerLoop F H full (b.drop H) (i + 1) (k + 1) := by
  rw [readerLoop]
  rw [dif_pos h]

/-- C10: when `hop_length` is omitted (`None`) or given as `0`, the effective
hop length is `fft_size // 4` (512 for the default `fft_size` of 2048); any
nonzero supplied value — even one larger than `fft_size` — is stored without
validation. -/
theorem hop_length_default_policy :
    (∀ F : Nat, initHopLength F none = F / 4) ∧
    (∀ F : Nat, initHopLength F (some 0) = F / 4) ∧
    initHopLength 2048 none = 512 ∧
    ∀ F h : Nat, h ≠ 0 → initHopLength F (some h) = h := by
  refine ⟨fun _ => rfl, fun _ => rfl, rfl, fun F h hh => ?_⟩
  simp [initHopLength, hh]

/-- C10 witness: a hop length of 3000 (larger than `fft_size = 2048`) is
accepted unchanged, and the defaults evaluate as claimed. -/
theorem hop_length_default_policy_witness :
    (3000 : Nat) ≠ 0 ∧ initHopLength 2048 (some 3000) = 3000 :=
  ⟨by decide, hop_length_default_policy.2.2.2 2048 3000 (by decide)⟩

/-- C4 counterexample: with `total_samples = 0`, `fft_size = 2048`,
`hop_length = 512` the code returns `-3`, a negative value, where the claim
requires `max 0 _ = 0`. -/
theorem num_time_frames_counterexample :
    num_time_frames 0 2048 512 = -3 ∧ num_time_frames 0 2048 512 < 0 := by
  constructor <;> decide

/-- C4 (amended): `num_time_frames` is `(total_samples − fft_size) // hop_length + 1`
with Python floor division and no clamp to zero: it matches the claimed
`⌊(total_samples − fft_size)/hop_length⌋ + 1 ≥ 1` when `total_samples ≥ fft_size`,
it is `0` when `fft_size − hop_length ≤ total_samples < fft_size`, and it is
negative (not `0`) when `total_samples < fft_size − hop_length`. -/
theorem num_time_frames_amended (ts F H : Int) (hH : 0 < H) :
    num_time_frames ts F H = (ts - F).fdiv H + 1 ∧
    (F ≤ ts → 1 ≤ num_time_frames ts F H) ∧
    (F - H ≤ ts → ts < F → num_time_frames ts F H = 0) ∧
    (ts < F - H → num_time_frames ts F H < 0) := by
  have hH0 : H ≠ 0 := by omega
  have hfd : (ts - F).fdiv H = (ts - F) / H := Int.fdiv_eq_ediv _ (le_of_lt hH)
  refine ⟨rfl, ?_, ?_, ?_⟩
  · intro hts
    have h1 : 0 ≤ (ts - F) / H := Int.ediv_nonneg (by omega) (le_of_lt hH)
    unfold num_time_frames
    omega
  · intro h1 h2
    have key : (ts - F) / H = -1 := by
      have hz : (ts - F + H) / H = 0 := Int.ediv_eq_zero_of_lt (by omega) (by omega)
      have hs : (ts - F + 1 * H) / H = (ts - F) / H + 1 :=
        Int.add_mul_ediv_right _ 1 hH0
      rw [one_mul] at hs
      omega
    unfold num_time_frames
    omega
  · intro hts
    have hle : ts - F ≤ -H - 1 := by omega
    have h1 : (ts - F) / H ≤ (-H - 1) / H := Int.ediv_le_ediv hH hle
    have h2 : (-H - 1) / H = -2 := by
      have hz : (H - 1) / H = 0 := Int.ediv_eq_zero_of_lt (by omega) (by omega)
      have hs : (H - 1 + (-2) * H) / H = (H - 1) / H + (-2) :=
        Int.add_mul_ediv_right _ (-2) hH0
      have harg : H - 1 + (-2) * H = -H - 1 := by ring
      rw [harg] at hs
      omega
    unfold num_time_frames
    omega

/-- C4 witness: at `total_samples = 44100`, `fft_size = 2048`,
`hop_length = 512` the hypotheses hold and the amended claim applies. -/
theorem num_time_frames_amended_witness :
    (0 : Int) < 512 ∧
    (num_time_frames 44100 2048 512 = (44100 - 2048 : Int).fdiv 512 + 1 ∧
      ((2048 : Int) ≤ 44100 → 1 ≤ num_time_frames 44100 2048 512) ∧
      ((2048 - 512 : Int) ≤ 44100 → (44100 : Int) < 2048 →
        num_time_frames 44100 2048 512 = 0) ∧
      ((44100 : Int) < 2048 - 512 → num_time_frames 44100 2048 512 < 0)) :=
  ⟨by decide, num_time_frames_amended 44100 2048 512 (by decide)⟩

theorem fftWorkerLoop_fst_nonneg {α : Type} (cbFails : Int → Bool)
    (transform : List α → List α) :
    ∀ (steps : List (Bool × QItem α)) (p : Int × List α),
      p ∈ fftWorkerLoop cbFails transform steps → 0 ≤ p.1 := by
  intro steps
  induction steps with
  | nil => intro p hp; simp [fftWorkerLoop] at hp
  | cons s rest ih =>
    intro p hp
    obtain ⟨stopSet, item⟩ := s
    cases stopSet with
    | true => simp [fftWorkerLoop] at hp
    | false =>
      cases item with
      | empty =>
        exact ih p (by simpa [fftWorkerLoop] using hp)
      | sentinel => simp [fftWorkerLoop] at hp
      | frame i d =>
        by_cases hf : cbFails (i : Int)
        · simp [fftWorkerLoop, hf] at hp
          subst hp
          exact Int.ofNat_nonneg i
        · simp [fftWorkerLoop, hf] at hp
          rcases hp with hp | hp
          · subst hp
            exact Int.ofNat_nonneg i
          · exact ih p hp

/-- C6: `stop()` is idempotent on the analyzer state (the second call sees
`is_running = False` and returns immediately), and a run of `_fft_worker` —
however it ends: stop event, sentinel, queue exhaustion, or a callback
exception — invokes the callback with a negative frame index exactly once,
namely the terminal `(-1, [])` call from the `finally` block, and that call
is the last invocation. -/
theorem stop_idempotent_terminal_once {α : Type} :
    (∀ s : AnalyzerState α, stop (stop s) = stop s) ∧
    ∀ (cbFails : Int → Bool) (transform : List α → List α)
      (steps : List (Bool × QItem α)),
      (fftWorker cbFails transform steps).filter (fun c => decide (c.1 < 0)) =
        [((-1 : Int), ([] : List α))] ∧
      (fftWorker cbFails transform steps).getLast? = some ((-1 : Int), []) := by
  constructor
  · intro s
    by_cases h : s.is_running
    · simp [stop, h]
    · simp [stop, h]
  · intro cbFails transform steps
    constructor
    · rw [fftWorker, List.filter_append]
      have hdrop : (fftWorkerLoop cbFails transform steps).filter
          (fun c => decide (c.1 < 0)) = [] := by
        rw [List.filter_eq_nil_iff]
        intro p hp
        have := fftWorkerLoop_fst_nonneg cbFails transform steps p hp
        simp
        omega
      rw [hdrop]
      rfl
    · rw [fftWorker]
      exact List.getLast?_concat _

/-- C7 counterexample: with a callback that raises on frame index 0, the
worker receives frames 0 and 1 but delivers only frame 0 and the terminal
call — the exception escapes the inner loop to the outer handler, so frame 1
is never delivered, contradicting "every subsequent frame is still
delivered". -/
theorem callback_failure_counterexample :
    fftWorker (fun i => decide (i = 0)) (fun d => d)
        [(false, QItem.frame 0 ([] : List ℤ)), (false, QItem.frame 1 [])] =
      [(0, []), (-1, [])] ∧
    ((1 : Int), ([] : List ℤ)) ∉
      fftWorker (fun i => decide (i = 0)) (fun d => d)
        [(false, QItem.frame 0 ([] : List ℤ)), (false, QItem.frame 1 [])] := by
  constructor <;> decide

/-- C7 (amended): a per-frame callback exception does not crash the worker
thread, but it is caught by the worker's outer handler, not inside the loop:
the processing loop terminates at the failing frame, no subsequent frame is
delivered, and the terminal `(-1, [])` callback from the `finally` block is
still invoked (its own failure is likewise caught). -/
theorem callback_failure_amended {α : Type} (cbFails : Int → Bool)
    (transform : List α → List α) (i : Nat) (d : List α)
    (rest : List (Bool × QItem α)) (hf : cbFails (i : Int) = true) :
    fftWorkerLoop cbFails transform ((false, QItem.frame i d) :: rest) =
      [((i : Int), transform d)] ∧
    fftWorker cbFails transform ((false, QItem.frame i d) :: rest) =
      [((i : Int), transform d), ((-1 : Int), [])] := by
  refine ⟨?_, ?_⟩ <;> simp [fftWorker, fftWorkerLoop, hf]

/-- C7 witness: the amended claim applied to a callback failing on index 0
with one pending later frame. -/
theorem callback_failure_amended_witness :
    ((fun i : Int => decide (i = 0)) ((0 : Nat) : Int) = true) ∧
    fftWorker (fun i : Int => decide (i = 0)) (fun d => d)
        [(false, QItem.frame 0 ([] : List ℤ)), (false, QItem.frame 1 [])] =
      [(((0 : Nat) : Int), [] ), ((-1 : Int), [])] :=
  ⟨by decide,
   (callback_failure_amended (fun i : Int => decide (i = 0)) (fun d => d)
     0 [] [(false, QItem.frame 1 [])] (by decide)).2⟩

/-- C8 counterexample: `start()` does not create a fresh channel.  From a
stopped state whose queue still holds the previous run's sentinel, `start`
succeeds but leaves the stale sentinel in the queue; and from a naturally
finished run on which `stop()` was never called, `is_running` is still true
and `start` raises `AlreadyRunning` instead of restarting. -/
theorem start_reset_counterexample :
    startStateUpdate (⟨false, true, true, [none]⟩ : AnalyzerState ℤ) =
      Except.ok ⟨true, false, false, [none]⟩ ∧
    (⟨true, false, false, [none]⟩ : AnalyzerState ℤ).audio_queue ≠ [] ∧
    startStateUpdate (⟨true, true, false, []⟩ : AnalyzerState ℤ) =
      Except.error "Analyzer is already running" :=
  ⟨rfl, by decide, rfl⟩

/-- C8 (amended): `start()` succeeds exactly when `is_running` is false
(after `stop()`; a naturally finished run keeps `is_running = True`, so
restarting it without `stop()` raises `AlreadyRunning`), and it resets only
`is_running`, `is_finished` and the stop event: the channel is the one
created in `__init__`, reused as is, so any items left from the previous run
remain observable by the new run.  The segmenter buffer and frame index are
local variables of `_reader_worker` and are therefore fresh in every run. -/
theorem start_no_queue_reset_amended {α : Type} (s : AnalyzerState α)
    (h : s.is_running = false) :
    startStateUpdate s =
      Except.ok { s with is_running := true, is_finished := false,
                         stop_event := false } ∧
    ∀ s2, startStateUpdate s = Except.ok s2 → s2.audio_queue = s.audio_queue := by
  constructor
  · simp [startStateUpdate, h]
  · intro s2 h2
    simp [startStateUpdate, h] at h2
    rw [← h2]

/-- C8 witness: the amended claim applied to a stopped state with a stale
sentinel still in the queue. -/
theorem start_no_queue_reset_amended_witness :
    ((⟨false, true, true, [none]⟩ : AnalyzerState ℤ).is_running = false) ∧
    (startStateUpdate (⟨false, true, true, [none]⟩ : AnalyzerState ℤ) =
      Except.ok ⟨true, false, false, [none]⟩ ∧
     ∀ s2, startStateUpdate (⟨false, true, true, [none]⟩ : AnalyzerState ℤ) =
        Except.ok s2 → s2.audio_queue = [none]) :=
  ⟨by decide, start_no_queue_reset_amended ⟨false, true, true, [none]⟩ (by decide)⟩

theorem segLoop_append {α : Type} {F H : Nat} (hH : 0 < H) (hHF : H ≤ F) :
    ∀ (n : Nat) (b c : List α) (i : Nat), b.length ≤ n →
      segLoop F H (b ++ c) i =
        ((segLoop F H b i).1 ++
           (segLoop F H ((segLoop F H b i).2 ++ c)
             (i + (segLoop F H b i).1.length)).1,
         (segLoop F H ((segLoop F H b i).2 ++ c)
           (i + (segLoop F H b i).1.length)).2) := by
  have hF : 0 < F := lt_of_lt_of_le hH hHF
  intro n
  induction n with
  | zero =>
    intro b c i hb
    have hb0 : b = [] := List.length_eq_zero.mp (Nat.le_zero.mp hb)
    subst hb0
    have hneg : ¬(F ≤ ([] : List α).length ∧ 0 < H ∧ 0 < F) := by
      simp
      omega
    rw [segLoop_neg hneg]
    simp
  | succ n ih =>
    intro b c i hb
    by_cases hcond : F ≤ b.length
    · have hguardb : F ≤ b.length ∧ 0 < H ∧ 0 < F := ⟨hcond, hH, hF⟩
      have hguardbc : F ≤ (b ++ c).length ∧ 0 < H ∧ 0 < F :=
        ⟨by simp; omega, hH, hF⟩
      rw [segLoop_pos hguardbc, segLoop_pos hguardb,
        List.take_append_of_le_length hcond,
        List.drop_append_of_le_length (le_trans hHF hcond)]
      rw [ih (b.drop H) c (i + 1) (by simp; omega)]
      simp only [List.cons_append, List.length_cons]
      have harith : i + 1 + (segLoop F H (b.drop H) (i + 1)).1.length =
          i + ((segLoop F H (b.drop H) (i + 1)).1.length + 1) := by omega
      rw [harith]
    · have hneg : ¬(F ≤ b.length ∧ 0 < H ∧ 0 < F) := fun hc => hcond hc.1
      rw [segLoop_neg hneg]
      simp

theorem segLoop_residual {α : Type} {F H : Nat} (hH : 0 < H) (hF : 0 < F) :
    ∀ (n : Nat) (b : List α) (i : Nat), b.length ≤ n →
      (segLoop F H b i).2.length < F := by
  intro n
  induction n with
  | zero =>
    intro b i hb
    have hb0 : b = [] := List.length_eq_zero.mp (Nat.le_zero.mp hb)
    subst hb0
    have hneg : ¬(F ≤ ([] : List α).length ∧ 0 < H ∧ 0 < F) := by
      simp
      omega
    rw [segLoop_neg hneg]
    simpa using hF
  | succ n ih =>
    intro b i hb
    by_cases hcond : F ≤ b.length
    · rw [segLoop_pos ⟨hcond, hH, hF⟩]
      exact ih (b.drop H) (i + 1) (by simp; omega)
    · have hneg : ¬(F ≤ b.length ∧ 0 < H ∧ 0 < F) := fun hc => hcond hc.1
      rw [segLoop_neg hneg]
      simp
      omega

theorem segLoop_getElem {α : Type} {F H : Nat} (hH : 0 < H) (hHF : H ≤ F) :
    ∀ (n : Nat) (b : List α) (i j : Nat), b.length ≤ n →
      j < (segLoop F H b i).1.length →
      (segLoop F H b i).1[j]? = some (i + j, (b.drop (j * H)).take F) ∧
      F + j * H ≤ b.length := by
  have hF : 0 < F := lt_of_lt_of_le hH hHF
  intro n
  induction n with
  | zero =>
    intro b i j hb hj
    have hb0 : b = [] := List.length_eq_zero.mp (Nat.le_zero.mp hb)
    subst hb0
    have hneg : ¬(F ≤ ([] : List α).length ∧ 0 < H ∧ 0 < F) := by
      simp
      omega
    rw [segLoop_neg hneg] at hj
    simp at hj
  | succ n ih =>
    intro b i j hb hj
    by_cases hcond : F ≤ b.length
    · rw [segLoop_pos ⟨hcond, hH, hF⟩] at hj ⊢
      cases j with
      | zero =>
        constructor
        · simp
        · simpa using hcond
      | succ j =>
        simp only [List.length_cons, Nat.add_lt_add_iff_right] at hj
        have hlen : (b.drop H).length ≤ n := by
          simp
          omega
        obtain ⟨h1, h2⟩ := ih (b.drop H) (i + 1) j hlen hj
        constructor
        · rw [List.getElem?_cons_succ, h1, List.drop_drop]
          have harith1 : i + 1 + j = i + (j + 1) := by omega
          have harith2 : H + j * H = (j + 1) * H := by ring
          rw [harith1, harith2]
        · rw [List.length_drop] at h2
          have harith2 : (j + 1) * H = j * H + H := by ring
          rw [harith2]
          omega
    · have hneg : ¬(F ≤ b.length ∧ 0 < H ∧ 0 < F) := fun hc => hcond hc.1
      rw [segLoop_neg hneg] at hj
      simp at hj

/-- C3: feeding an input stream to the segmentation loop in one piece
produces frames whose indices are exactly `0, 1, 2, …` with no gaps, where
the frame with index `j` consists of the `fft_size` consecutive samples of
the stream starting at offset `j · hop_length`. -/
theorem frame_indices_and_offsets {α : Type} (F H : Nat) (hH : 0 < H)
    (hHF : H ≤ F) (s : List α) :
    ((segLoop F H s 0).1.map Prod.fst =
      List.range (segLoop F H s 0).1.length) ∧
    ∀ j, j < (segLoop F H s 0).1.length →
      (segLoop F H s 0).1[j]? = some (j, (s.drop (j * H)).take F) ∧
      ((s.drop (j * H)).take F).length = F := by
  have key : ∀ j, j < (segLoop F H s 0).1.length →
      (segLoop F H s 0).1[j]? = some (0 + j, (s.drop (j * H)).take F) ∧
      F + j * H ≤ s.length :=
    fun j hj => segLoop_getElem hH hHF s.length s 0 j le_rfl hj
  constructor
  · apply List.ext_getElem?
    intro j
    rw [List.getElem?_map]
    by_cases hj : j < (segLoop F H s 0).1.length
    · rw [(key j hj).1, List.getElem?_range hj]
      simp
    · rw [List.getElem?_eq_none (by omega), List.getElem?_eq_none (by simp; omega)]
      rfl
  · intro j hj
    obtain ⟨h1, h2⟩ := key j hj
    refine ⟨by rw [h1]; simp, ?_⟩
    rw [List.length_take, List.length_drop]
    omega

/-- C3 witness: a seven-sample stream with `fft_size = 3`, `hop_length = 2`
yields frames indexed 0, 1, 2 at offsets 0, 2, 4. -/
theorem frame_indices_and_offsets_witness :
    (0 : Nat) < 2 ∧ (2 : Nat) ≤ 3 ∧
    (((segLoop 3 2 ([5, 6, 7, 8, 9, 10, 11] : List ℤ) 0).1.map Prod.fst =
        List.range (segLoop 3 2 ([5, 6, 7, 8, 9, 10, 11] : List ℤ) 0).1.length) ∧
      ∀ j, j < (segLoop 3 2 ([5, 6, 7, 8, 9, 10, 11] : List ℤ) 0).1.length →
        (segLoop 3 2 ([5, 6, 7, 8, 9, 10, 11] : List ℤ) 0).1[j]? =
          some (j, (([5, 6, 7, 8, 9, 10, 11] : List ℤ).drop (j * 2)).take 3) ∧
        ((([5, 6, 7, 8, 9, 10, 11] : List ℤ).drop (j * 2)).take 3).length = 3) :=
  ⟨by decide, by decide,
   frame_indices_and_offsets 3 2 (by decide) (by decide) [5, 6, 7, 8, 9, 10, 11]⟩

/-- C2: chunk-boundary independence.  Feeding any list of chunks one call at
a time produces exactly the same indexed frames, and leaves exactly the same
residual buffer and frame counter, as feeding the concatenation of all the
chunks in a single call; in particular residual samples shorter than a full
frame are retained across calls and never lost. -/
theorem chunk_boundary_independence {α : Type} (F H : Nat) (hH : 0 < H)
    (hHF : H ≤ F) (chunks : List (List α)) :
    feedChunks F H ⟨[], 0⟩ chunks = segPush F H ⟨[], 0⟩ chunks.flatten := by
  have hF : 0 < F := lt_of_lt_of_le hH hHF
  suffices hgen : ∀ (cs : List (List α)) (s : SegState α),
      s.buffer.length < F → feedChunks F H s cs = segPush F H s cs.flatten by
    exact hgen chunks ⟨[], 0⟩ (by simpa using hF)
  intro cs
  induction cs with
  | nil =>
    intro s hs
    obtain ⟨b, i⟩ := s
    have hb : b.length < F := hs
    have hneg : ¬(F ≤ (b ++ ([] : List α)).length ∧ 0 < H ∧ 0 < F) := by
      simp
      omega
    show ([], ⟨b, i⟩) = segPush F H ⟨b, i⟩ (List.flatten [])
    unfold segPush
    rw [show List.flatten ([] : List (List α)) = ([] : List α) from rfl]
    rw [segLoop_neg hneg]
    simp
  | cons c cs ih =>
    intro s hs
    obtain ⟨b, i⟩ := s
    have hres : (segLoop F H (b ++ c) i).2.length < F :=
      segLoop_residual hH hF (b ++ c).length (b ++ c) i le_rfl
    have ihs := ih ⟨(segLoop F H (b ++ c) i).2,
      i + (segLoop F H (b ++ c) i).1.length⟩ hres
    have happ := segLoop_append hH hHF (b ++ c).length (b ++ c)
      (List.flatten cs) i le_rfl
    simp only [feedChunks, segPush, List.flatten_cons]
    rw [← List.append_assoc, happ]
    simp only [segPush] at ihs
    rw [ihs]
    simp [List.length_append]
    omega

/-- C2 witness: two chunks split mid-frame give the same frames and residual
as the joined stream, at `fft_size = 3`, `hop_length = 2`. -/
theorem chunk_boundary_independence_witness :
    (0 : Nat) < 2 ∧ (2 : Nat) ≤ 3 ∧
    feedChunks 3 2 ⟨[], 0⟩ ([[5, 6], [7, 8, 9], [10]] : List (List ℤ)) =
      segPush 3 2 ⟨[], 0⟩ ([[5, 6], [7, 8, 9], [10]] : List (List ℤ)).flatten :=
  ⟨by decide, by decide,
   chunk_boundary_independence 3 2 (by decide) (by decide) [[5, 6], [7, 8, 9], [10]]⟩

theorem readerLoop_mapFst {α : Type} {F H : Nat} {full : Nat → Bool}
    (hH : 0 < H) (hF : 0 < F) :
    ∀ (n : Nat) (b : List α) (i k : Nat), b.length ≤ n →
      (readerLoop F H full b i k).map Prod.fst =
        List.range' i (readerLoop F H full b i k).length := by
  intro n
  induction n with
  | zero =>
    intro b i k hb
    have hb0 : b = [] := List.length_eq_zero.mp (Nat.le_zero.mp hb)
    subst hb0
    have hneg : ¬(F ≤ ([] : List α).length ∧ 0 < H ∧ 0 < F) := by
      simp
      omega
    rw [readerLoop_neg hneg]
    rfl
  | succ n ih =>
    intro b i k hb
    by_cases hcond : F ≤ b.length
    · rw [readerLoop_pos ⟨hcond, hH, hF⟩]
      by_cases hfull : full k
      · rw [if_pos hfull]
        exact ih (b.drop H) i (k + 1) (by simp; omega)
      · rw [if_neg hfull, List.map_cons,
          ih (b.drop H) (i + 1) (k + 1) (by simp; omega),
          List.length_cons, List.range'_succ]
    · have hneg : ¬(F ≤ b.length ∧ 0 < H ∧ 0 < F) := fun hc => hcond hc.1
      rw [readerLoop_neg hneg]
      rfl

theorem readerLoop_mem {α : Type} {F H : Nat} {full : Nat → Bool}
    (hH : 0 < H) (hHF : H ≤ F) :
    ∀ (n : Nat) (b : List α) (i k : Nat) (p : Nat × List α), b.length ≤ n →
      p ∈ readerLoop F H full b i k →
      ∃ a, p.1 ≤ i + a ∧ p.2 = (b.drop (a * H)).take F ∧
        F + a * H ≤ b.length := by
  have hF : 0 < F := lt_of_lt_of_le hH hHF
  intro n
  induction n with
  | zero =>
    intro b i k p hb hp
    have hb0 : b = [] := List.length_eq_zero.mp (Nat.le_zero.mp hb)
    subst hb0
    have hneg : ¬(F ≤ ([] : List α).length ∧ 0 < H ∧ 0 < F) := by
      simp
      omega
    rw [readerLoop_neg hneg] at hp
    simp at hp
  | succ n ih =>
    intro b i k p hb hp
    by_cases hcond : F ≤ b.length
    · rw [readerLoop_pos ⟨hcond, hH, hF⟩] at hp
      by_cases hfull : full k
      · rw [if_pos hfull] at hp
        obtain ⟨a, h1, h2, h3⟩ := ih (b.drop H) i (k + 1) p (by simp; omega) hp
        refine ⟨a + 1, by omega, ?_, ?_⟩
        · rw [h2, List.drop_drop]
          have harith : H + a * H = (a + 1) * H := by ring
          rw [harith]
        · rw [List.length_drop] at h3
          have harith : (a + 1) * H = a * H + H := by ring
          rw [harith]
          omega
      · rw [if_neg hfull] at hp
        rcases List.mem_cons.mp hp with hp | hp
        · refine ⟨0, ?_, ?_, ?_⟩
          · rw [hp]
            omega
          · rw [hp]
            simp
          · simpa using hcond
        · obtain ⟨a, h1, h2, h3⟩ := ih (b.drop H) (i + 1) (k + 1) p
            (by simp; omega) hp
          refine ⟨a + 1, by omega, ?_, ?_⟩
          · rw [h2, List.drop_drop]
            have harith : H + a * H = (a + 1) * H := by ring
            rw [harith]
          · rw [List.length_drop] at h3
            have harith : (a + 1) * H = a * H + H := by ring
            rw [harith]
            omega
    · have hneg : ¬(F ≤ b.length ∧ 0 < H ∧ 0 < F) := fun hc => hcond hc.1
      rw [readerLoop_neg hneg] at hp
      simp at hp

/-- C1 counterexample: `fft_size = 2`, `hop_length = 1`, stream
`[10, 20, 30, 40]`, queue full exactly at the first put attempt.  The frame
at offset 0 is dropped, yet the delivered indices are the gapless `0, 1` —
because `frame_index` is only incremented on a successful put — and the
frame delivered with index 0 is `[20, 30]`, not the frame
`[10, 20]` that starts at sample offset `0 · hop_length`. -/
theorem backpressure_drop_counterexample :
    readerLoop 2 1 (fun k => decide (k = 0)) ([10, 20, 30, 40] : List ℤ) 0 0 =
      [(0, [20, 30]), (1, [30, 40])] ∧
    (([10, 20, 30, 40] : List ℤ).drop (0 * 1)).take 2 ≠ [20, 30] := by
  constructor
  · simp [readerLoop]
  · decide

/-- C1 (amended): when the queue is full the Reader drops the frame without
retrying, but the drop is NOT observable as a gap in the delivered indices:
`frame_index` is only incremented on a successful put, so the delivered
indices are always exactly `0, 1, 2, …` (strictly increasing, gap-free)
regardless of drops, and the frame delivered with index `i` is a full
`fft_size`-sample frame starting at sample offset `a · hop_length` for some
`a ≥ i` (`a` exceeds `i` by the number of earlier drops), not necessarily at
offset `i · hop_length`. -/
theorem backpressure_drop_amended {α : Type} (F H : Nat) (full : Nat → Bool)
    (hH : 0 < H) (hHF : H ≤ F) (s : List α) :
    ((readerLoop F H full s 0 0).map Prod.fst =
      List.range (readerLoop F H full s 0 0).length) ∧
    ∀ p ∈ readerLoop F H full s 0 0, ∃ a, p.1 ≤ a ∧
      p.2 = (s.drop (a * H)).take F ∧
      ((s.drop (a * H)).take F).length = F := by
  have hF : 0 < F := lt_of_lt_of_le hH hHF
  constructor
  · rw [readerLoop_mapFst hH hF s.length s 0 0 le_rfl, List.range_eq_range']
  · intro p hp
    obtain ⟨a, h1, h2, h3⟩ :=
      readerLoop_mem hH hHF s.length s 0 0 p le_rfl hp
    refine ⟨a, by omega, h2, ?_⟩
    rw [List.length_take, List.length_drop]
    omega

/-- C1 witness: the amended claim applied to the dropped-frame scenario of
the counterexample. -/
theorem backpressure_drop_amended_witness :
    (0 : Nat) < 1 ∧ (1 : Nat) ≤ 2 ∧
    (((readerLoop 2 1 (fun k => decide (k = 0))
          ([10, 20, 30, 40] : List ℤ) 0 0).map Prod.fst =
        List.range (readerLoop 2 1 (fun k => decide (k = 0))
          ([10, 20, 30, 40] : List ℤ) 0 0).length) ∧
      ∀ p ∈ readerLoop 2 1 (fun k => decide (k = 0))
          ([10, 20, 30, 40] : List ℤ) 0 0, ∃ a, p.1 ≤ a ∧
        p.2 = (([10, 20, 30, 40] : List ℤ).drop (a * 1)).take 2 ∧
        ((([10, 20, 30, 40] : List ℤ).drop (a * 1)).take 2).length = 2) :=
  ⟨by decide, by decide,
   backpressure_drop_amended 2 1 (fun k => decide (k = 0)) (by decide)
     (by decide) [10, 20, 30, 40]⟩

theorem magnitude_db_eq_power (m : ℝ) :
    magnitude_db m = 10 * Real.logb 10 ((max m 1e-10) ^ 2) := by
  unfold magnitude_db Real.logb
  rw [Real.log_pow]
  push_cast
  ring

/-- C5 (amended): the delivered vector is the element-wise window multiply,
real-input FFT, magnitude, clamp at the floor `1e-10`, and `20·log10` of the
clamped magnitude — with NO `fft_size²` normalization — sliced to the
truncated bin count only when `max_frequency` is configured and the vector
exceeds that count; the single formula used is equivalently `10·log10` of
the clamped magnitude squared, applied consistently to every bin. -/
theorem fft_db_formula_amended (window : List ℝ) (maxFreqSet : Bool)
    (numBins : Nat) (frame : List ℝ) :
    processFrame window maxFreqSet numBins frame =
      processFramePower window maxFreqSet numBins frame := by
  unfold processFrame processFramePower
  simp only [magnitude_db_eq_power]

theorem rfft_one_zero : rfft [(1 : ℝ), 0] = [1, 1] := by
  unfold rfft
  simp [List.range_succ, Finset.sum_range_succ]

/-- C5 counterexample: for the two-sample frame `[1, 0]` with window
`[1, 1]` the code delivers `[0, 0]` dB (the magnitude of every bin is 1),
while the claimed formula — squared magnitude normalized by `fft_size²` —
would deliver `10·log10 (1/4) ≈ -6.02` dB per bin: the code performs no
`fft_size²` normalization. -/
theorem fft_normalization_counterexample :
    processFrame [1, 1] false 0 [(1 : ℝ), 0] ≠
      processFrameClaim [1, 1] false 0 [(1 : ℝ), 0] := by
  have hzip : List.zipWith (· * ·) [(1 : ℝ), 0] [1, 1] = [(1 : ℝ), 0] := by
    norm_num
  have habs : Complex.abs 1 = 1 := map_one Complex.abs
  have hLentry : magnitude_db (Complex.abs 1) = 0 := by
    rw [habs]
    unfold magnitude_db
    rw [max_eq_left (by norm_num), Real.logb_one, mul_zero]
  simp only [processFrame, processFrameClaim, hzip, rfft_one_zero,
    List.map_cons, List.map_nil, Bool.false_eq_true, false_and, if_false]
  intro h
  injection h with h0 h1
  rw [hLentry] at h0
  have hRentry :
      10 * Real.logb 10
        (max ((Complex.abs 1) ^ 2 / (([(1 : ℝ), 0].length : ℝ)) ^ 2) 1e-12) < 0 := by
    rw [habs]
    have harg : max ((1 : ℝ) ^ 2 / (([(1 : ℝ), 0].length : ℝ)) ^ 2) 1e-12 =
        1 / 4 := by
      rw [max_eq_left (by norm_num)]
      norm_num
    rw [harg]
    have hneg : Real.logb 10 (1 / 4 : ℝ) < 0 :=
      Real.logb_neg (by norm_num) (by norm_num) (by norm_num)
    linarith
  rw [← h0] at hRentry
  exact lt_irrefl 0 hRentry

theorem zipWith_replicate_zero :
    ∀ (F : Nat) (w : List ℝ) (y : ℝ),
      y ∈ List.zipWith (· * ·) (List.replicate F (0 : ℝ)) w → y = 0 := by
  intro F
  induction F with
  | zero =>
    intro w y hy
    simp at hy
  | succ F ih =>
    intro w y hy
    cases w with
    | nil => simp at hy
    | cons a w =>
      simp only [List.replicate_succ, List.zipWith_cons_cons,
        List.mem_cons] at hy
      rcases hy with hy | hy
      · rw [hy]
        ring
      · exact ih w y hy

theorem rfft_zero_input {x : List ℝ} (h : ∀ y ∈ x, y = 0) :
    ∀ c ∈ rfft x, c = 0 := by
  intro c hc
  unfold rfft at hc
  rw [List.mem_map] at hc
  obtain ⟨k, hk, hck⟩ := hc
  rw [← hck]
  apply Finset.sum_eq_zero
  intro n hn
  have hgd : x.getD n 0 = 0 := by
    rcases hx : x[n]? with _ | v
    · simp [hx]
    · have hv := List.getElem?_mem hx
      simp [hx, h v hv]
  rw [hgd]
  simp

/-- C9: for an all-zero (silence) input frame every element of the delivered
`magnitudes_db` vector is the finite real number `-200` — the dB image
`20·log10 (1e-10)` of the clamp floor — so every bin sits exactly at (hence
at or below) the numerical floor, and in this real-number model no `NaN` or
`-∞` can reach the callback: the clamp makes the argument of the logarithm
positive. -/
theorem silence_floor (F : Nat) (window : List ℝ) (maxFreqSet : Bool)
    (numBins : Nat) :
    magnitude_db 0 = -200 ∧
    ∀ x ∈ processFrame window maxFreqSet numBins (List.replicate F 0),
      x = -200 := by
  have hlogb : Real.logb 10 ((1e-10 : ℝ)) = -10 := by
    have h1 : (1e-10 : ℝ) = ((10 : ℝ) ^ (10 : ℕ))⁻¹ := by norm_num
    rw [h1, Real.logb_inv, Real.logb_pow, Real.logb_self_eq_one (by norm_num)]
    norm_num
  have hdb : magnitude_db 0 = -200 := by
    unfold magnitude_db
    rw [max_eq_right (by norm_num), hlogb]
    norm_num
  refine ⟨hdb, ?_⟩
  intro x hx
  simp only [processFrame] at hx
  have hzero := zipWith_replicate_zero F window
  have hmem : x ∈ List.map (fun c => magnitude_db (Complex.abs c))
      (rfft (List.zipWith (· * ·) (List.replicate F 0) window)) := by
    split at hx
    · exact List.mem_of_mem_take hx
    · exact hx
  rw [List.mem_map] at hmem
  obtain ⟨c, hc, hcx⟩ := hmem
  have hc0 : c = 0 := rfft_zero_input hzero c hc
  rw [← hcx, hc0, map_zero]
  exact hdb

end SpectrumWeaver
